import Mathlib

/-!
Verification development for the video-editor backend.

This file gives a shallow embedding, over exact rational arithmetic, of the
algorithmic core of the repository:

* `app/services/ffmpeg.py` — the atempo rate-change chain builder, the effect
  filter builder and the per-clip part of the export-command compiler;
* `app/services/smart_edit.py` — beat detection post-processing, beat-sync
  clip generation, the montage builder and highlight post-processing;
* `app/services/auto_edit.py` — the FFmpeg silence-removal fallback plan;
* `app/workers/tasks.py` — the job status/progress/retry execution model
  (statuses persisted and progress values published by an export run).

Python float arithmetic is modelled by exact rationals (`ℚ`); Python `round`
(round-half-to-even) is modelled exactly by `pyRound`.
-/

/-- Python `round(q)`: round half to even (used by `round(...)` and by the
decimal formatting `f"{x:.4f}"` of the source, which we model as exact
rounding of the scaled rational). -/
def pyRound (q : ℚ) : ℤ :=
  let f := ⌊q⌋
  let frac := q - f
  if frac < 1/2 then f
  else if 1/2 < frac then f + 1
  else if f % 2 = 0 then f else f + 1

/-- The value printed by `f"{r:.4f}"`, as a rational. -/
def roundTo4 (r : ℚ) : ℚ := (pyRound (r * 10000) : ℚ) / 10000

/-- The value printed by `f"{r:.2f}"`, as a rational. -/
def roundTo2 (r : ℚ) : ℚ := (pyRound (r * 100) : ℚ) / 100

/-! ## `_build_atempo_chain` (app/services/ffmpeg.py, lines 140-162)

Each emitted `atempo=x` primitive is represented by its rational factor `x`.
The two `while` loops are written with an explicit fuel argument; the fuel
`atempoFuel` is always large enough for the loop to reach its exit condition
(proved below), so the fuelled function agrees with the source loop. -/

/-- `while remaining < 0.5: parts.append("atempo=0.5"); remaining /= 0.5`. -/
def atempoSlowLoop : ℕ → ℚ → List ℚ × ℚ
  | 0, r => ([], r)
  | n+1, r =>
    if r < 1/2 then
      let p := atempoSlowLoop n (r / (1/2))
      ((1/2 : ℚ) :: p.1, p.2)
    else ([], r)

/-- `while remaining > 100.0: parts.append("atempo=100.0"); remaining /= 100.0`. -/
def atempoFastLoop : ℕ → ℚ → List ℚ × ℚ
  | 0, r => ([], r)
  | n+1, r =>
    if 100 < r then
      let p := atempoFastLoop n (r / 100)
      ((100 : ℚ) :: p.1, p.2)
    else ([], r)

/-- Fuel that suffices for both loops (proved in `atempoFuel_slow_enough`
and `atempoFuel_fast_enough`). -/
def atempoFuel (speed : ℚ) : ℕ := speed.den + speed.num.natAbs + 2

/-- `_build_atempo_chain(speed)`: the list of atempo factors emitted for a
given speed. -/
def build_atempo_chain (speed : ℚ) : List ℚ :=
  if |speed - 1| < 1/100 then []
  else
    let s := atempoSlowLoop (atempoFuel speed) speed
    let f := atempoFastLoop (atempoFuel speed) s.2
    let parts := s.1 ++ f.1
    if 1/100 < |f.2 - 1| then parts ++ [roundTo4 f.2] else parts

/-! ## Job execution model (app/workers/tasks.py)

`_update_job_status` persists (commits) a status/progress change and then
publishes it; `_publish_progress` publishes a processing progress value.
`export_video` marks the job processing with progress 0, streams clamped
progress parsed from ffmpeg stderr (published, then persisted), publishes
95 while uploading, persists completed/100 and publishes it; on any
exception it persists+publishes failed and calls `self.retry(countdown=60)`
(`max_retries=2`), which re-executes the whole task body. -/

inductive JobStatus
  | pending | processing | completed | failed
deriving DecidableEq, Repr

/-- One persisted (`session.commit()`) or published (`redis.publish`) job
update, with the status and progress value it carries. -/
inductive JobEvent
  | persist (status : JobStatus) (progress : ℚ)
  | publish (status : JobStatus) (progress : ℚ)
deriving DecidableEq, Repr

/-- Progress computed from one parsed ffmpeg `time=` value (tasks.py
line 334): `min(95.0, current_ms / total_duration_ms * 100)`. -/
def exportPct (total t : ℚ) : ℚ := min 95 (t / total * 100)

/-- The events of the stderr progress loop (lines 323-337): for each parsed
time, `_publish_progress(job_id, pct)` then `job.progress = pct` committed. -/
def exportProgressEvents (total : ℚ) (times : List ℚ) : List JobEvent :=
  (times.map fun t =>
    [JobEvent.publish .processing (exportPct total t),
     JobEvent.persist .processing (exportPct total t)]).flatten

/-- `_update_job_status` (lines 86-113): commit the change, then broadcast it. -/
def updateStatusEvents (st : JobStatus) (p : ℚ) : List JobEvent :=
  [JobEvent.persist st p, JobEvent.publish st p]

/-- The job's stored progress after the stderr loop (0 when no time was
parsed); this is what the failed update broadcasts, since the failure path
passes no progress. -/
def lastPct (total : ℚ) (times : List ℚ) : ℚ :=
  times.foldl (fun _ t => exportPct total t) 0

/-- The persisted/published events of one execution of the `export_video`
task body, given the ffmpeg times it saw and whether it succeeded. -/
def exportAttempt (total : ℚ) (times : List ℚ) (ok : Bool) : List JobEvent :=
  updateStatusEvents .processing 0 ++ exportProgressEvents total times ++
    (if ok then
      JobEvent.publish .processing 95 :: updateStatusEvents .completed 100
    else updateStatusEvents .failed (lastPct total times))

/-- A whole run of one job id: after a failed attempt, `self.retry` re-runs
the task body as long as retries remain. Each list entry describes one
attempt (its parsed times and whether it succeeded). -/
def exportRun (total : ℚ) : ℕ → List (List ℚ × Bool) → List JobEvent
  | _, [] => []
  | _, (times, true) :: _ => exportAttempt total times true
  | 0, (times, false) :: _ => exportAttempt total times false
  | retries+1, (times, false) :: rest =>
      exportAttempt total times false ++ exportRun total retries rest

/-- Exception classes escaping a task body; `validation` stands for the
`ValueError`s raised for a missing required input or a job/project/asset
that was not found. -/
inductive ExcKind
  | validation | transient
deriving DecidableEq, Repr

/-- The run with typed failures: `none` is a successful attempt, `some k`
an attempt raising an exception of kind `k`. The handler `except Exception`
(tasks.py lines 372-383 and 1704-1715) never inspects the exception class:
it always persists failed and calls `self.retry`. -/
def exportRunExc (total : ℚ) : ℕ → List (List ℚ × Option ExcKind) → List JobEvent
  | _, [] => []
  | _, (times, none) :: _ => exportAttempt total times true
  | 0, (times, some _) :: _ => exportAttempt total times false
  | retries+1, (times, some _) :: rest =>
      exportAttempt total times false ++ exportRunExc total retries rest

/-- The sequence of statuses persisted to the job row, in commit order. -/
def persistedStatuses (l : List JobEvent) : List JobStatus :=
  l.filterMap fun e => match e with
    | .persist s _ => some s
    | _ => none

/-- The sequence of progress values published on the pub/sub channel. -/
def publishedProgress (l : List JobEvent) : List ℚ :=
  l.filterMap fun e => match e with
    | .publish _ p => some p
    | _ => none

/-- The published progress values that carry the processing status. -/
def processingPublishes (l : List JobEvent) : List ℚ :=
  l.filterMap fun e => match e with
    | .publish .processing p => some p
    | _ => none

def isTerminal : JobStatus → Bool
  | .completed => true
  | .failed => true
  | _ => false

/-- Claim C2's finality predicate on a persisted-status trace: a terminal
status is never followed by any further persisted status. -/
def terminalsFinal : List JobStatus → Bool
  | [] => true
  | [_] => true
  | s :: s2 :: rest => !isTerminal s && terminalsFinal (s2 :: rest)

/-- Scans the events, checking that no progress value of 100 or more is
persisted or published before a completed status has been persisted
(`flag` records whether one has been). -/
def hundredAfterCompleted (flag : Bool) : List JobEvent → Bool
  | [] => true
  | JobEvent.persist s p :: rest =>
      if s = JobStatus.completed then hundredAfterCompleted true rest
      else (flag || decide (p < 100)) && hundredAfterCompleted flag rest
  | JobEvent.publish _ p :: rest =>
      (flag || decide (p < 100)) && hundredAfterCompleted flag rest

/-- The number of terminal statuses persisted during a run: each completed
task-body execution persists exactly one. -/
def terminalPersistCount (l : List JobEvent) : ℕ :=
  (persistedStatuses l).countP fun s => isTerminal s

/-! ## Effect filters and export-command video chains (app/services/ffmpeg.py) -/

/-- One entry of a clip's `filters["effects"]` list. -/
structure Effect where
  id : String
  value : ℚ
  enabled : Bool
deriving DecidableEq, Repr

/-- A clip's `filters` dict `{"effects": [...], "speed": 1.0}`; both keys
are read with `.get` defaults in the source. -/
structure ClipFilters where
  effects : List Effect := []
  speed : Option ℚ := none
deriving DecidableEq, Repr

/-- The FFmpeg filter strings produced by `_EFFECT_BUILDERS`, represented
structurally; numeric payloads are the exact values the source formats into
the string (2-decimal formatting modelled by `roundTo2`). -/
inductive EffectFilter
  | boxblur (radius : ℤ)
  | eqBrightness (b : ℚ)
  | eqContrast (c : ℚ)
  | eqSaturation (s : ℚ)
  | hueGray
  | sepia (v : ℚ)
  | hueRotate (h : ℚ)
  | negate
deriving DecidableEq, Repr

/-- `_EFFECT_BUILDERS[effect_id](value)` (ffmpeg.py lines 98-112); ids
without a builder yield nothing. -/
def effectBuilder (id : String) (v : ℚ) : Option EffectFilter :=
  if id = "blur" then
    if 0 < v then some (.boxblur (max 1 (pyRound v))) else none
  else if id = "brightness" then
    if 1/100 < |v - 1| then some (.eqBrightness (roundTo2 (v - 1))) else none
  else if id = "contrast" then
    if 1/100 < |v - 1| then some (.eqContrast (roundTo2 v)) else none
  else if id = "saturation" then
    if 1/100 < |v - 1| then some (.eqSaturation (roundTo2 v)) else none
  else if id = "grayscale" then
    if 19/20 ≤ v then some .hueGray
    else if 0 < v then some (.eqSaturation (roundTo2 (1 - v))) else none
  else if id = "sepia" then
    if 0 < v then some (.sepia v) else none
  else if id = "hueRotate" then
    if 0 < v then some (.hueRotate v) else none
  else if id = "invert" then
    if 1/2 ≤ v then some .negate else none
  else none

/-- `build_effect_filters(filters)` (lines 115-137): enabled effects in list
order, each mapped through its builder, no-op results skipped. -/
def build_effect_filters (filters : Option ClipFilters) : List EffectFilter :=
  match filters with
  | none => []
  | some f => f.effects.filterMap fun e =>
      if e.enabled then effectBuilder e.id e.value else none

/-- A timeline clip as consumed by `build_export_command`; keys the source
reads with `.get` and a non-constant default are `Option`s. -/
structure Clip where
  source : String
  start_ms : ℚ := 0
  end_ms : ℚ := 0
  trim_start_ms : Option ℚ := none
  trim_end_ms : Option ℚ := none
  filters : Option ClipFilters := none
  fade_in_ms : ℚ := 0
  fade_out_ms : ℚ := 0
deriving DecidableEq, Repr

structure Track where
  type : String
  clips : List Clip
deriving DecidableEq, Repr

/-- The `output` settings consulted for the canvas; width/height default to
1920x1080 when absent. -/
structure OutputSettings where
  width : Option ℤ := none
  height : Option ℤ := none
  fps : Option ℤ := none
deriving DecidableEq, Repr

structure ProjectData where
  tracks : List Track := []
  output : OutputSettings := {}
deriving DecidableEq, Repr

/-- One stage of a per-clip video filter chain (lines 290-313). -/
inductive VFilter
  | trim (start stop : ℚ)
  | setptsRate (speed : ℚ)
  | setptsReset
  | effect (e : EffectFilter)
  | scale (w h : ℤ)
  | pad (w h : ℤ)
deriving DecidableEq, Repr

/-- `clip_filters.get("speed", 1.0)` where `clip_filters = clip.get("filters") or {}`. -/
def clipSpeed (c : Clip) : ℚ :=
  match c.filters with
  | some f => f.speed.getD 1
  | none => 1

/-- `trim_start = clip.get("trim_start_ms", 0) / 1000.0`. -/
def clipTrimStart (c : Clip) : ℚ := c.trim_start_ms.getD 0 / 1000

/-- `trim_end = clip.get("trim_end_ms", clip.get("end_ms", 0)) / 1000.0`. -/
def clipTrimEnd (c : Clip) : ℚ := (c.trim_end_ms.getD c.end_ms) / 1000

/-- The video filter chain built for one clip of a video track:
trim, then `setpts=PTS/{speed}` when `|speed-1| > 0.01` and the plain
reset otherwise, then the effect filters, then scale and pad to the
output canvas. -/
def buildVideoChain (c : Clip) (width height : ℤ) : List VFilter :=
  let speed := clipSpeed c
  let setpts :=
    if 1/100 < |speed - 1| then VFilter.setptsRate speed else VFilter.setptsReset
  [VFilter.trim (clipTrimStart c) (clipTrimEnd c), setpts]
    ++ (build_effect_filters c.filters).map VFilter.effect
    ++ [VFilter.scale width height, VFilter.pad width height]

/-- The per-clip video filter chains of the compiled export command, one per
clip of each video track, in track/clip list order (the video half of
`build_export_command`, lines 252-313; audio chains, concat, overlays and
encoder flags are built afterwards and do not alter these chains). -/
def exportVideoChains (pd : ProjectData) : List (List VFilter) :=
  let width := pd.output.width.getD 1920
  let height := pd.output.height.getD 1080
  ((pd.tracks.filter fun t => t.type == "video").map fun t =>
    t.clips.map fun c => buildVideoChain c width height).flatten

/-! ## Beat detection and beat-sync clips (app/services/smart_edit.py) -/

/-- `xs[::step]` on a list. -/
def everyNth (step : ℕ) (l : List ℚ) : List ℚ :=
  (l.enum.filter fun p => p.1 % step == 0).map Prod.snd

/-- `step = max(1, round(sensitivity))` (line 114). -/
def beatStep (sensitivity : ℚ) : ℕ := (max 1 (pyRound sensitivity)).toNat

/-- The greedy minimum-gap filter of `detect_beat_timestamps`
(lines 120-127): keep a beat iff it lies at least `minGap` after the
previously kept one; `prev` starts at 0. -/
def greedyMinGap (minGap : ℚ) : ℚ → List ℚ → List ℚ
  | _, [] => []
  | prev, bt :: rest =>
    if minGap ≤ bt - prev then bt :: greedyMinGap minGap bt rest
    else greedyMinGap minGap prev rest

/-- The pure tail of `detect_beat_timestamps` (lines 109-127): subsample
the beat times by sensitivity, convert to milliseconds, apply the greedy
minimum-gap filter. -/
def detect_beat_timestamps_post (beat_times_sec : List ℚ) (sensitivity : ℚ)
    (min_clip_duration_ms : ℤ) : List ℚ :=
  greedyMinGap (min_clip_duration_ms : ℚ) 0
    ((everyNth (beatStep sensitivity) beat_times_sec).map (· * 1000))

/-- A clip produced by `generate_beat_sync_clips` (the fields the claims
are about; in the source `trimEnd` is always 0 and `duration` is the full
video duration). -/
structure BeatClip where
  startTime : ℚ
  endTime : ℚ
  transitionInMs : Option ℤ := none
deriving DecidableEq, Repr

/-- `cut_points` (lines 143-145): `[0.0] + beats`, filtered to
`< video_duration`, then the video duration appended. -/
def beatCutPoints (video_duration_ms : ℚ) (beat_timestamps_ms : List ℚ) : List ℚ :=
  ((0 :: beat_timestamps_ms).filter fun p => p < video_duration_ms) ++ [video_duration_ms]

/-- `generate_beat_sync_clips` (lines 130-172): one clip per adjacent pair
of cut points, skipping pairs closer than 100 ms; transitions attach to
every emitted segment whose pair index is positive, with duration
`min(300, (end-start)//4)`. -/
def generate_beat_sync_clips (video_duration_ms : ℚ) (beat_timestamps_ms : List ℚ)
    (include_transitions : Bool) : List BeatClip :=
  let cps := beatCutPoints video_duration_ms beat_timestamps_ms
  (cps.zip cps.tail).enum.filterMap fun ie =>
    let s := ie.2.1
    let e := ie.2.2
    if e - s < 100 then none
    else some
      { startTime := s
        endTime := e
        transitionInMs :=
          if include_transitions && decide (0 < ie.1) then some (min 300 ⌊(e - s) / 4⌋)
          else none }

/-! ## Montage builder (app/services/smart_edit.py, lines 179-239) -/

/-- Asset metadata dict handed to the montage builder. -/
structure MAsset where
  id : ℕ
  duration_ms : Option ℚ := none
  asset_type : String
deriving DecidableEq, Repr

structure MClip where
  assetId : ℕ
  startTime : ℚ
  endTime : ℚ
  trimStart : ℚ
  duration : ℚ
  ctype : String
  transitionInMs : Option ℚ := none
deriving DecidableEq, Repr

/-- `STYLE_PRESETS[style]` as (avg_clip_duration_ms, transition_duration_ms);
unknown styles fall back to cinematic via `.get(style, STYLE_PRESETS["cinematic"])`. -/
def stylePreset (style : String) : ℚ × ℚ :=
  if style = "fast_paced" then (1500, 200)
  else if style = "slideshow" then (5000, 1000)
  else (4000, 800)

/-- `asset.get("duration_ms") or 5000`: the Python `or` replaces both
`None` and `0` by the 5000 default. -/
def assetDurationOr5000 (a : MAsset) : ℚ :=
  match a.duration_ms with
  | some d => if d = 0 then 5000 else d
  | none => 5000

/-- `build_montage_clips`: per-asset duration is the even split of the
target (when truthy) or the preset value; images take the preset duration
directly; assets longer than the allotted duration are center-trimmed,
otherwise the allotted duration is overwritten by the asset duration;
clips are laid back-to-back on a running cursor. -/
def build_montage_clips (assets : List MAsset) (style : String)
    (target_duration_ms : Option ℚ) (include_transitions : Bool) : List MClip :=
  let preset := stylePreset style
  let per_clip_ms :=
    match target_duration_ms with
    | some t => if t ≠ 0 ∧ assets.length ≠ 0 then t / assets.length else preset.1
    | none => preset.1
  (assets.enum.foldl (fun (acc : List MClip × ℚ) ia =>
    let asset := ia.2
    let asset_duration := assetDurationOr5000 asset
    let cd0 := min per_clip_ms asset_duration
    let cd1 := if asset.asset_type = "image" then per_clip_ms else cd0
    let ts_cd :=
      if cd1 < asset_duration then ((asset_duration - cd1) / 2, cd1)
      else ((0 : ℚ), asset_duration)
    let clip : MClip :=
      { assetId := asset.id
        startTime := acc.2
        endTime := acc.2 + ts_cd.2
        trimStart := ts_cd.1
        duration := asset_duration
        ctype := if asset.asset_type = "image" then "image" else "video"
        transitionInMs :=
          if include_transitions && decide (0 < ia.1) then some preset.2 else none }
    (acc.1 ++ [clip], acc.2 + ts_cd.2)) ([], 0)).1

/-! ## Highlight detection post-processing (app/services/smart_edit.py, lines 341-380) -/

/-- A candidate highlight as built in the sliding-window loop. -/
structure Candidate where
  start_ms : ℤ
  end_ms : ℤ
  duration_ms : ℤ
  score : ℚ
deriving DecidableEq, Repr

/-- Candidate construction: each window contributes
`(start_sec, end_sec, window_score)`; windows outside the allowed duration
range are skipped, times rounded to milliseconds, scores to 4 decimals. -/
def mkHighlightCandidates (wins : List (ℚ × ℚ × ℚ))
    (min_duration_ms max_duration_ms : ℤ) : List Candidate :=
  wins.filterMap fun w =>
    let dur_ms := (w.2.1 - w.1) * 1000
    if dur_ms < (min_duration_ms : ℚ) ∨ (max_duration_ms : ℚ) < dur_ms then none
    else some
      { start_ms := pyRound (w.1 * 1000)
        end_ms := pyRound (w.2.1 * 1000)
        duration_ms := pyRound dur_ms
        score := roundTo4 w.2.2 }

/-- The overlap test of the de-duplication loop (line 372):
`c["start_ms"] < h["end_ms"] and c["end_ms"] > h["start_ms"]`. -/
def hlOverlap (c h : Candidate) : Prop := c.start_ms < h.end_ms ∧ h.start_ms < c.end_ms

instance (c h : Candidate) : Decidable (hlOverlap c h) :=
  inferInstanceAs (Decidable (_ ∧ _))

/-- The greedy de-duplication loop (lines 368-378): append a candidate iff
it overlaps no kept one, stop as soon as `max_highlights` are kept. -/
def hlDedup (max_highlights : ℕ) : List Candidate → List Candidate → List Candidate
  | acc, [] => acc
  | acc, c :: rest =>
    let acc' := if acc.any fun h => decide (hlOverlap c h) then acc else acc ++ [c]
    if max_highlights ≤ acc'.length then acc'
    else hlDedup max_highlights acc' rest

/-- The pure tail of `detect_highlights`: candidates from the sliding
windows, stably sorted by descending score, greedily de-duplicated and
truncated, then re-sorted by start time. (The reason-annotation step that
follows in the source adds tags only and changes no interval.) -/
def detect_highlights_post (wins : List (ℚ × ℚ × ℚ)) (max_highlights : ℕ)
    (min_duration_ms max_duration_ms : ℤ) : List Candidate :=
  let cands := (mkHighlightCandidates wins min_duration_ms max_duration_ms).mergeSort
    fun a b => decide (b.score ≤ a.score)
  (hlDedup max_highlights [] cands).mergeSort fun a b => decide (a.start_ms ≤ b.start_ms)

/-! ## Silence-removal fallback (app/services/auto_edit.py, lines 113-155) -/

/-- One detected silence interval. -/
structure SilenceSeg where
  start : ℚ
  stop : ℚ
deriving DecidableEq, Repr

inductive SilencePlan
  | copyThrough
  | extractConcat (segments : List (ℚ × ℚ))
deriving DecidableEq, Repr

/-- The keep-interval (speech-segment) construction of
`_remove_silence_ffmpeg` (lines 136-148): invert the silence intervals
around the running `prev_end`, pad each boundary, clamp to
`[0, duration]`, keep an interval only when longer than 0.1 s — except the
final interval, which is appended whenever `prev_end < duration`, with no
length check. -/
def speechSegments (silence : List SilenceSeg) (duration padding : ℚ) : List (ℚ × ℚ) :=
  let acc := silence.foldl (fun (acc : List (ℚ × ℚ) × ℚ) seg =>
    let speech_start := max 0 (acc.2 - padding)
    let speech_stop := min duration (seg.start + padding)
    (if speech_start + 1/10 < speech_stop then acc.1 ++ [(speech_start, speech_stop)]
     else acc.1,
      seg.stop)) ([], 0)
  if acc.2 < duration then acc.1 ++ [(max 0 (acc.2 - padding), duration)] else acc.1

/-- `_remove_silence_ffmpeg` as a plan: copy the file through when no
silence was detected or no speech segment survives, else extract the
speech segments and concatenate them. -/
def remove_silence_ffmpeg_plan (silence : List SilenceSeg) (duration padding : ℚ) :
    SilencePlan :=
  if silence.isEmpty then .copyThrough
  else if (speechSegments silence duration padding).isEmpty then .copyThrough
  else .extractConcat (speechSegments silence duration padding)

/-! # Theorems -/

/-! ## C1: the atempo rate-change chain -/

theorem pyRound_abs_le (q : ℚ) : |(pyRound q : ℚ) - q| ≤ 1/2 := by
  have h1 := Int.floor_le q
  have h2 := Int.lt_floor_add_one q
  simp only [pyRound]
  split_ifs with hf hg he <;> rw [abs_le] <;> constructor <;> push_cast <;> linarith

theorem atempoSlowLoop_of_ge (n : ℕ) (r : ℚ) (h : 1/2 ≤ r) :
    atempoSlowLoop n r = ([], r) := by
  cases n with
  | zero => rfl
  | succ n => rw [atempoSlowLoop, if_neg (not_lt.mpr h)]

theorem atempoFastLoop_of_le (n : ℕ) (r : ℚ) (h : r ≤ 100) :
    atempoFastLoop n r = ([], r) := by
  cases n with
  | zero => rfl
  | succ n => rw [atempoFastLoop, if_neg (not_lt.mpr h)]

theorem atempoSlowLoop_spec (n : ℕ) (r : ℚ) (hfuel : 1/2 ≤ r * 2^n) :
    ∃ k, atempoSlowLoop n r = (List.replicate k (1/2 : ℚ), r * 2^k) ∧
      1/2 ≤ r * 2^k ∧ (k = 0 ∨ r * 2^k < 1) := by
  induction n generalizing r with
  | zero =>
    refine ⟨0, ?_, hfuel, Or.inl rfl⟩
    rw [pow_zero, mul_one]
    rfl
  | succ n ih =>
    by_cases h : r < 1/2
    · have hdiv : r / (1/2) = r * 2 := by ring
      have hfuel' : 1/2 ≤ (r / (1/2)) * 2^n := by
        rw [hdiv]
        calc (1:ℚ)/2 ≤ r * 2^(n+1) := hfuel
          _ = r * 2 * 2^n := by ring
      obtain ⟨k, hk, hge, hlt⟩ := ih (r / (1/2)) hfuel'
      have hval : r / (1/2) * 2^k = r * 2^(k+1) := by rw [hdiv]; ring
      refine ⟨k + 1, ?_, ?_, ?_⟩
      · rw [atempoSlowLoop, if_pos h]
        simp only [hk, List.replicate_succ]
        rw [Prod.mk.injEq]
        exact ⟨rfl, hval⟩
      · rw [← hval]; exact hge
      · refine Or.inr ?_
        rcases hlt with h0 | hlt1
        · subst h0
          have : r * 2^(0+1) = r * 2 := by ring
          rw [this]; linarith
        · rw [← hval]; exact hlt1
    · refine ⟨0, ?_, ?_, Or.inl rfl⟩
      · rw [pow_zero, mul_one, atempoSlowLoop, if_neg h]
        rfl
      · rw [pow_zero, mul_one]; exact not_lt.mp h

theorem atempoFastLoop_spec (n : ℕ) (r : ℚ) (hfuel : r ≤ 100 * 100^n) :
    ∃ k, atempoFastLoop n r = (List.replicate k (100 : ℚ), r / 100^k) ∧
      r / 100^k ≤ 100 ∧ (k = 0 ∨ 1 < r / 100^k) := by
  induction n generalizing r with
  | zero =>
    refine ⟨0, ?_, ?_, Or.inl rfl⟩
    · rw [pow_zero, div_one]
      rfl
    · rw [pow_zero, div_one]
      calc r ≤ 100 * 100^0 := hfuel
        _ = 100 := by norm_num
  | succ n ih =>
    by_cases h : 100 < r
    · have hfuel' : r / 100 ≤ 100 * 100^n := by
        rw [div_le_iff₀ (by norm_num : (0:ℚ) < 100)]
        calc r ≤ 100 * 100^(n+1) := hfuel
          _ = 100 * 100^n * 100 := by ring
      obtain ⟨k, hk, hle, hgt⟩ := ih (r / 100) hfuel'
      have hval : r / 100 / 100^k = r / 100^(k+1) := by
        rw [div_div, ← pow_succ']
      refine ⟨k + 1, ?_, ?_, ?_⟩
      · rw [atempoFastLoop, if_pos h]
        simp only [hk, List.replicate_succ]
        rw [Prod.mk.injEq]
        exact ⟨rfl, hval⟩
      · rw [← hval]; exact hle
      · refine Or.inr ?_
        rw [← hval]
        rcases hgt with h0 | hgt1
        · subst h0
          rw [pow_zero, div_one, lt_div_iff₀ (by norm_num : (0:ℚ) < 100)]
          linarith
        · exact hgt1
    · refine ⟨0, ?_, ?_, Or.inl rfl⟩
      · rw [pow_zero, div_one, atempoFastLoop, if_neg h]
        rfl
      · rw [pow_zero, div_one]; exact not_lt.mp h

theorem rat_one_div_den_le (s : ℚ) (hs : 0 < s) : 1 / (s.den : ℚ) ≤ s := by
  have hd : (0:ℚ) < (s.den : ℚ) := by exact_mod_cast s.den_pos
  have hnum : (1:ℤ) ≤ s.num := Rat.num_pos.mpr hs
  rw [div_le_iff₀ hd]
  have hmul : s * (s.den:ℚ) = (s.num:ℚ) := by
    have h := Rat.num_div_den s
    rw [div_eq_iff (ne_of_gt hd)] at h
    exact h.symm
  rw [hmul]
  exact_mod_cast hnum

theorem atempoFuel_slow_enough (s : ℚ) (hs : 0 < s) : 1/2 ≤ s * 2^(atempoFuel s) := by
  have h1 : 1 / (s.den : ℚ) ≤ s := rat_one_div_den_le s hs
  have hd : (0:ℚ) < (s.den : ℚ) := by exact_mod_cast s.den_pos
  have h2 : (s.den : ℚ) ≤ 2^(s.den : ℕ) := by exact_mod_cast (Nat.lt_two_pow s.den).le
  have h3 : (2:ℚ)^(s.den : ℕ) ≤ 2^(atempoFuel s) := by
    apply pow_le_pow_right₀ (by norm_num : (1:ℚ) ≤ 2)
    unfold atempoFuel
    omega
  calc (1:ℚ)/2 ≤ 1 := by norm_num
    _ = (1 / (s.den:ℚ)) * (s.den:ℚ) := by field_simp
    _ ≤ s * 2^(s.den : ℕ) := by
        apply mul_le_mul h1 h2 hd.le (le_trans (by positivity) h1)
    _ ≤ s * 2^(atempoFuel s) := mul_le_mul_of_nonneg_left h3 hs.le

theorem rat_le_num (s : ℚ) (hs : 0 < s) : s ≤ (s.num : ℚ) := by
  have hd1 : (1:ℚ) ≤ (s.den : ℚ) := by exact_mod_cast s.den_pos
  have hnum : (0:ℚ) ≤ (s.num : ℚ) := by exact_mod_cast (Rat.num_pos.mpr hs).le
  calc s = (s.num : ℚ) / (s.den : ℚ) := (Rat.num_div_den s).symm
    _ ≤ (s.num : ℚ) := div_le_self hnum hd1

theorem atempoFuel_fast_enough (s : ℚ) (hs : 0 < s) : s ≤ 100 * 100^(atempoFuel s) := by
  have h1 : s ≤ (s.num:ℚ) := rat_le_num s hs
  have hnum0 : 0 ≤ s.num := (Rat.num_pos.mpr hs).le
  have h2 : (s.num:ℚ) = (s.num.natAbs : ℚ) := by
    rw [Int.cast_natAbs]
    exact_mod_cast (abs_of_nonneg hnum0).symm
  have h3 : (s.num.natAbs : ℚ) ≤ 2^(s.num.natAbs) := by
    exact_mod_cast (Nat.lt_two_pow _).le
  have h4 : (2:ℚ)^(s.num.natAbs) ≤ 100^(s.num.natAbs) := by
    apply pow_le_pow_left₀ (by norm_num : (0:ℚ) ≤ 2) (by norm_num : (2:ℚ) ≤ 100)
  have h5 : (100:ℚ)^(s.num.natAbs) ≤ 100^(atempoFuel s) := by
    apply pow_le_pow_right₀ (by norm_num : (1:ℚ) ≤ 100)
    unfold atempoFuel
    omega
  have h6 : (100:ℚ)^(atempoFuel s) ≤ 100 * 100^(atempoFuel s) :=
    le_mul_of_one_le_left (by positivity) (by norm_num)
  calc s ≤ (s.num:ℚ) := h1
    _ = (s.num.natAbs : ℚ) := h2
    _ ≤ 2^(s.num.natAbs) := h3
    _ ≤ 100^(s.num.natAbs) := h4
    _ ≤ 100^(atempoFuel s) := h5
    _ ≤ 100 * 100^(atempoFuel s) := h6

theorem build_atempo_chain_struct (s : ℚ) (hs : 0 < s) (hfar : ¬ |s - 1| < 1/100) :
    ∃ a b, (1/2 ≤ s * 2^a / 100^b ∧ s * 2^a / 100^b ≤ 100) ∧
      build_atempo_chain s =
        List.replicate a (1/2 : ℚ) ++ List.replicate b (100 : ℚ) ++
          (if 1/100 < |s * 2^a / 100^b - 1| then [roundTo4 (s * 2^a / 100^b)] else []) := by
  obtain ⟨a, ha, hage, hacase⟩ :=
    atempoSlowLoop_spec (atempoFuel s) s (atempoFuel_slow_enough s hs)
  have hfastfuel : s * 2^a ≤ 100 * 100^(atempoFuel s) := by
    rcases hacase with h0 | hlt
    · subst h0
      rw [pow_zero, mul_one]
      exact atempoFuel_fast_enough s hs
    · have h100 : (1:ℚ) ≤ 100^(atempoFuel s) := by
        calc (1:ℚ) = 100^0 := by norm_num
          _ ≤ 100^(atempoFuel s) := pow_le_pow_right₀ (by norm_num) (Nat.zero_le _)
      linarith
  obtain ⟨b, hb, hble, hbcase⟩ := atempoFastLoop_spec (atempoFuel s) (s * 2^a) hfastfuel
  have hlow : 1/2 ≤ s * 2^a / 100^b := by
    rcases hbcase with h0 | hgt
    · subst h0
      rw [pow_zero, div_one]
      exact hage
    · linarith
  refine ⟨a, b, ⟨hlow, hble⟩, ?_⟩
  rw [build_atempo_chain, if_neg hfar]
  simp only [ha, hb]
  split_ifs with hc
  · rfl
  · rw [List.append_nil]

theorem roundTo4_abs_le (r : ℚ) : |roundTo4 r - r| ≤ 1/20000 := by
  have h := pyRound_abs_le (r * 10000)
  have heq : roundTo4 r - r = ((pyRound (r * 10000) : ℚ) - r * 10000) / 10000 := by
    rw [roundTo4]
    ring
  rw [heq, abs_div, abs_of_pos (by norm_num : (0:ℚ) < 10000)]
  rw [div_le_iff₀ (by norm_num : (0:ℚ) < 10000)]
  linarith

theorem build_atempo_chain_prod (s : ℚ) (hs : 0 < s) :
    |(build_atempo_chain s).prod - s| ≤ s / 99 := by
  by_cases hnear : |s - 1| < 1/100
  · rw [build_atempo_chain, if_pos hnear, List.prod_nil]
    rw [abs_sub_lt_iff] at hnear
    rw [abs_le]
    constructor <;> [nlinarith [hnear.1, hnear.2]; nlinarith [hnear.1, hnear.2]]
  · obtain ⟨a, b, ⟨hlow, hhigh⟩, hchain⟩ := build_atempo_chain_struct s hs hnear
    have hA : (0:ℚ) < 2^a := pow_pos (by norm_num) a
    have hB : (0:ℚ) < 100^b := pow_pos (by norm_num) b
    set r := s * 2^a / 100^b with hr
    have hrpos : (0:ℚ) < r := lt_of_lt_of_le (by norm_num) hlow
    have hs_eq : s = r * 100^b / 2^a := by
      rw [hr]
      field_simp
    have hfactor : ((1:ℚ)/2)^a = (2^a)⁻¹ := by rw [one_div, inv_pow]
    rw [hchain, List.prod_append, List.prod_append, List.prod_replicate,
      List.prod_replicate, hfactor]
    split_ifs with hc
    · have hr4 : |roundTo4 r - r| ≤ 1/20000 := roundTo4_abs_le r
      have key : (2^a)⁻¹ * 100^b * ([roundTo4 r].prod) - s =
          (100^b / 2^a) * (roundTo4 r - r) := by
        rw [List.prod_singleton, hs_eq]
        field_simp
        ring
      rw [key, abs_mul, abs_of_pos (by positivity : (0:ℚ) < 100^b / 2^a)]
      have hgoal : s / 99 = (100^b / 2^a) * (r / 99) := by
        rw [hs_eq]
        ring
      rw [hgoal]
      apply mul_le_mul_of_nonneg_left _ (by positivity)
      calc |roundTo4 r - r| ≤ 1/20000 := hr4
        _ ≤ r / 99 := by
            rw [le_div_iff₀ (by norm_num : (0:ℚ) < 99)]
            linarith
    · rw [not_lt, abs_le] at hc
      have hr99 : 99/100 ≤ r := by linarith [hc.1]
      have hr101 : r ≤ 101/100 := by linarith [hc.2]
      have key : (2^a)⁻¹ * 100^b * (List.prod []) - s = (100^b / 2^a) * (1 - r) := by
        rw [List.prod_nil, hs_eq]
        field_simp
        ring
      rw [key, abs_mul, abs_of_pos (by positivity : (0:ℚ) < 100^b / 2^a)]
      have hgoal : s / 99 = (100^b / 2^a) * (r / 99) := by
        rw [hs_eq]
        ring
      rw [hgoal]
      apply mul_le_mul_of_nonneg_left _ (by positivity)
      rw [abs_le]
      constructor <;> nlinarith [hr99, hr101]

theorem build_atempo_chain_mid (s : ℚ) (h1 : 1/2 ≤ s) (h2 : s ≤ 100) :
    build_atempo_chain s =
      if |s - 1| < 1/100 then []
      else if 1/100 < |s - 1| then [roundTo4 s] else [] := by
  by_cases hfar : |s - 1| < 1/100
  · rw [build_atempo_chain, if_pos hfar, if_pos hfar]
  · rw [build_atempo_chain, if_neg hfar, if_neg hfar]
    simp only [atempoSlowLoop_of_ge _ s h1, atempoFastLoop_of_le _ s h2]
    split_ifs <;> simp

/-- C1 fails as the spec states it: at speed 0.99005 — which lies in
`[0.5, 100]` and inside the identity band (`|s-1| = 0.00995 < 0.01`, in
float arithmetic as well as here) — the builder emits nothing, so the
"exactly one primitive for s in [0.5, 100]" clause fails, and the composed
rate is the empty product 1, which differs from 0.99005 by 0.00995 — more
than 1% of the requested speed. -/
theorem c1_counterexample :
    (1/2 : ℚ) ≤ 19801/20000 ∧ (19801/20000 : ℚ) ≤ 100 ∧
      |(19801:ℚ)/20000 - 1| < 1/100 ∧
      build_atempo_chain (19801/20000) = [] ∧
      ¬ (build_atempo_chain (19801/20000)).length = 1 ∧
      ¬ |(build_atempo_chain (19801/20000)).prod - 19801/20000| ≤
          (1/100) * (19801/20000) := by
  have hband : |(19801:ℚ)/20000 - 1| < 1/100 := by
    rw [abs_of_nonpos (by norm_num : (19801:ℚ)/20000 - 1 ≤ 0)]
    norm_num
  have h : build_atempo_chain (19801/20000) = [] := by
    rw [build_atempo_chain, if_pos hband]
  refine ⟨by norm_num, by norm_num, hband, h, by rw [h]; norm_num, ?_⟩
  rw [h, List.prod_nil]
  have habs2 : |1 - (19801:ℚ)/20000| = 199/20000 := by
    rw [abs_of_pos (by norm_num : (0:ℚ) < 1 - 19801/20000)]
    norm_num
  rw [habs2]
  norm_num

/-- C1 (amended): for every positive speed `s`: (i) when `|s-1| < 0.01`
the builder emits nothing — so inside that identity band the composed rate
is 1, which for `s` between 0.99 and 1/1.01 deviates from `s` by more than
1% of `s`; (ii) when `s` lies in `[0.5, 100]` with `|s-1| > 0.01` it emits
exactly one primitive, the 4-decimal rounding of `s`; (iii) the product of
the emitted factors always lies within `s/99` (≈ 1.0102%, not 1%) of `s`. -/
theorem c1_rate_change_chain (s : ℚ) (hs : 0 < s) :
    (|s - 1| < 1/100 → build_atempo_chain s = []) ∧
    (1/2 ≤ s → s ≤ 100 → 1/100 < |s - 1| → build_atempo_chain s = [roundTo4 s]) ∧
    |(build_atempo_chain s).prod - s| ≤ s / 99 := by
  refine ⟨?_, ?_, build_atempo_chain_prod s hs⟩
  · intro hlt
    rw [build_atempo_chain, if_pos hlt]
  · intro h12 h100 hgt
    rw [build_atempo_chain_mid s h12 h100, if_neg (not_lt.mpr hgt.le), if_pos hgt]

/-- Witness for C1's amended theorem at the concrete speed 3. -/
theorem c1_rate_change_chain_witness :
    |(build_atempo_chain 3).prod - 3| ≤ 3 / 99 :=
  (c1_rate_change_chain 3 (by norm_num)).2.2

/-! ## C5: compiled video filter chain for a single plain 5-second clip -/

/-- C5: for a timeline with one video track holding a single 5-second clip
at speed 1.0 with no effects and no output settings, the compiled command
has exactly one video filter chain; it contains a trim stage, contains no
rate-change primitive, and ends with a scale and a pad to the default
1920x1080 canvas. With an explicit output size 1280x720 the chain ends
with a scale and a pad to 1280x720 instead. -/
theorem c5_single_clip_chain :
    (exportVideoChains
        { tracks := [⟨"video",
            [{ source := "/tmp/input.mp4", start_ms := 0, end_ms := 5000,
               trim_start_ms := some 0, trim_end_ms := some 5000 }]⟩] }).length = 1 ∧
    (∀ ch ∈ exportVideoChains
        { tracks := [⟨"video",
            [{ source := "/tmp/input.mp4", start_ms := 0, end_ms := 5000,
               trim_start_ms := some 0, trim_end_ms := some 5000 }]⟩] },
      (∃ a b, VFilter.trim a b ∈ ch) ∧
      (∀ sp, VFilter.setptsRate sp ∉ ch) ∧
      ∃ pre, ch = pre ++ [VFilter.scale 1920 1080, VFilter.pad 1920 1080]) ∧
    (∀ ch ∈ exportVideoChains
        { tracks := [⟨"video",
            [{ source := "/tmp/input.mp4", start_ms := 0, end_ms := 5000,
               trim_start_ms := some 0, trim_end_ms := some 5000 }]⟩],
          output := { width := some 1280, height := some 720 } },
      ∃ pre, ch = pre ++ [VFilter.scale 1280 720, VFilter.pad 1280 720]) := by
  have h1 : exportVideoChains
      { tracks := [⟨"video",
          [{ source := "/tmp/input.mp4", start_ms := 0, end_ms := 5000,
             trim_start_ms := some 0, trim_end_ms := some 5000 }]⟩] } =
      [[VFilter.trim 0 5, VFilter.setptsReset,
        VFilter.scale 1920 1080, VFilter.pad 1920 1080]] := by
    simp [exportVideoChains, buildVideoChain, clipSpeed, clipTrimStart, clipTrimEnd,
      build_effect_filters]
    norm_num
  have h2 : exportVideoChains
      { tracks := [⟨"video",
          [{ source := "/tmp/input.mp4", start_ms := 0, end_ms := 5000,
             trim_start_ms := some 0, trim_end_ms := some 5000 }]⟩],
        output := { width := some 1280, height := some 720 } } =
      [[VFilter.trim 0 5, VFilter.setptsReset,
        VFilter.scale 1280 720, VFilter.pad 1280 720]] := by
    simp [exportVideoChains, buildVideoChain, clipSpeed, clipTrimStart, clipTrimEnd,
      build_effect_filters]
    norm_num
  refine ⟨by rw [h1]; rfl, ?_, ?_⟩
  · intro ch hch
    rw [h1, List.mem_singleton] at hch
    subst hch
    refine ⟨⟨0, 5, by simp⟩, ?_, ⟨[VFilter.trim 0 5, VFilter.setptsReset], rfl⟩⟩
    intro sp
    simp
  · intro ch hch
    rw [h2, List.mem_singleton] at hch
    subst hch
    exact ⟨[VFilter.trim 0 5, VFilter.setptsReset], rfl⟩

/-! ## C8: silence-removal fallback keep-intervals -/

/-- C8 fails as stated: with the jump-cut fallback parameters
(padding 0.05) on a 10-second source with one silence interval
`{start 1, end 9.98}`, the produced plan contains the keep-interval
`[9.93, 10]`, which is 0.07 s long — shorter than 0.1 s — because the
final keep-interval is appended without the length check. -/
theorem c8_counterexample :
    remove_silence_ffmpeg_plan [⟨1, 499/50⟩] 10 (1/20) =
      SilencePlan.extractConcat [(0, 21/20), (993/100, 10)] ∧
    (993/100, (10:ℚ)) ∈ [((0:ℚ), (21:ℚ)/20), ((993:ℚ)/100, (10:ℚ))] ∧
    (10 : ℚ) - 993/100 < 1/10 := by
  refine ⟨?_, by simp, by norm_num⟩
  simp [remove_silence_ffmpeg_plan, speechSegments]
  norm_num
  exact fun h => absurd h (by simp)

theorem speechSegments_fold_invariant (silence : List SilenceSeg)
    (acc : List (ℚ × ℚ) × ℚ)
    (hacc : ∀ p ∈ acc.1, (1:ℚ)/10 < p.2 - p.1) (duration padding : ℚ) :
    ∀ p ∈ (silence.foldl (fun (acc : List (ℚ × ℚ) × ℚ) seg =>
      (if max 0 (acc.2 - padding) + 1/10 < min duration (seg.start + padding) then
          acc.1 ++ [(max 0 (acc.2 - padding), min duration (seg.start + padding))]
        else acc.1,
        seg.stop)) acc).1, (1:ℚ)/10 < p.2 - p.1 := by
  induction silence generalizing acc with
  | nil => exact hacc
  | cons seg rest ih =>
    rw [List.foldl_cons]
    apply ih
    intro p hp
    by_cases hkeep :
        max 0 (acc.2 - padding) + 1/10 < min duration (seg.start + padding)
    · rw [if_pos hkeep] at hp
      rcases List.mem_append.mp hp with h | h
      · exact hacc p h
      · rw [List.mem_singleton] at h
        subst h
        dsimp only
        linarith
    · rw [if_neg hkeep] at hp
      exact hacc p hp

/-- C8 (amended): the scenario holds — one silence interval `{2, 3}` with
padding 0.2 on a 10-second source yields exactly the keep-intervals
`[0, 2.2]` and `[2.8, 10]`; with no detected silence the file is copied
through; and every keep-interval except possibly the final one is longer
than 0.1 s (the final interval is appended without the length check). -/
theorem c8_keep_intervals :
    (remove_silence_ffmpeg_plan [⟨2, 3⟩] 10 (1/5) =
      SilencePlan.extractConcat [(0, 11/5), (14/5, 10)]) ∧
    (∀ duration padding : ℚ,
      remove_silence_ffmpeg_plan [] duration padding = SilencePlan.copyThrough) ∧
    (∀ (silence : List SilenceSeg) (duration padding : ℚ) (segs : List (ℚ × ℚ)),
      remove_silence_ffmpeg_plan silence duration padding =
        SilencePlan.extractConcat segs →
      ∀ p ∈ segs.dropLast, (1:ℚ)/10 < p.2 - p.1) := by
  refine ⟨?_, fun duration padding => rfl, ?_⟩
  · simp [remove_silence_ffmpeg_plan, speechSegments]
    norm_num
    exact fun h => absurd h (by simp)
  · intro silence duration padding segs hplan p hp
    rw [remove_silence_ffmpeg_plan] at hplan
    split_ifs at hplan with h1 h2
    have hsegs : segs = speechSegments silence duration padding := by
      injection hplan with h
      exact h.symm
    subst hsegs
    have hbase : ∀ q ∈ (silence.foldl (fun (acc : List (ℚ × ℚ) × ℚ) seg =>
        (if max 0 (acc.2 - padding) + 1/10 < min duration (seg.start + padding) then
            acc.1 ++ [(max 0 (acc.2 - padding), min duration (seg.start + padding))]
          else acc.1,
          seg.stop)) ([], 0)).1, (1:ℚ)/10 < q.2 - q.1 :=
      speechSegments_fold_invariant silence ([], 0) (by simp) duration padding
    rw [speechSegments] at hp
    split_ifs at hp with hfin
    · rw [List.dropLast_concat] at hp
      exact hbase p hp
    · exact hbase p ((List.dropLast_sublist _).subset hp)

/-- Witness for C8's amended theorem: the all-but-last length bound applied
at the scenario input, on the first (checked) keep-interval. -/
theorem c8_keep_intervals_witness :
    (1:ℚ)/10 < ((0:ℚ), (11:ℚ)/5).2 - ((0:ℚ), (11:ℚ)/5).1 :=
  c8_keep_intervals.2.2 [⟨2, 3⟩] 10 (1/5) [(0, 11/5), (14/5, 10)]
    c8_keep_intervals.1 (0, 11/5) (by simp)

/-! ## C9: montage builder and image assets -/

/-- C9: the montage scenario holds — three image assets with no stored
duration under style "slideshow" (5000 ms per clip) and no target duration
produce three back-to-back clips of 5000 ms each, the cursor ending at
15000 ms — but the claim that image assets are always allotted the full
per-clip duration is contradicted by the code: a single image asset whose
stored duration is 40 ms is allotted 40 ms, not the 5000 ms preset,
because the duration clamp that follows the image special case overrides
it (the source comment "For images, use the preset duration directly"
documents the claimed behaviour). -/
theorem c9_montage_eval :
    ((build_montage_clips
        [⟨1, none, "image"⟩, ⟨2, none, "image"⟩, ⟨3, none, "image"⟩]
        "slideshow" none true).map fun c => (c.startTime, c.endTime)) =
      [(0, 5000), (5000, 10000), (10000, 15000)] ∧
    ((build_montage_clips [⟨1, some 40, "image"⟩] "slideshow" none false).map
        fun c => (c.startTime, c.endTime)) = [(0, 40)] ∧
    ((40 : ℚ) = 5000 → False) := by
  refine ⟨?_, ?_, by norm_num⟩
  · simp [build_montage_clips, stylePreset, assetDurationOr5000, List.enum,
      List.enumFrom]
    norm_num
  · simp [build_montage_clips, stylePreset, assetDurationOr5000, List.enum,
      List.enumFrom]
    norm_num

/-! ## C2: terminal job statuses and the retry path -/

theorem option_mem_some {α : Type _} {a b : α} (h : a ∈ some b) : a = b := by
  rw [Option.mem_def] at h
  exact (Option.some_inj.mp h).symm

theorem persistedStatuses_append (l1 l2 : List JobEvent) :
    persistedStatuses (l1 ++ l2) = persistedStatuses l1 ++ persistedStatuses l2 := by
  simp [persistedStatuses]

theorem persistedStatuses_update (st : JobStatus) (p : ℚ) :
    persistedStatuses (updateStatusEvents st p) = [st] := rfl

theorem persistedStatuses_successTail :
    persistedStatuses (JobEvent.publish .processing 95 ::
      updateStatusEvents .completed 100) = [JobStatus.completed] := rfl

theorem persistedStatuses_progress (total : ℚ) (times : List ℚ) :
    persistedStatuses (exportProgressEvents total times) =
      List.replicate times.length JobStatus.processing := by
  induction times with
  | nil => rfl
  | cons t ts ih =>
    have hstep : exportProgressEvents total (t :: ts) =
        [JobEvent.publish .processing (exportPct total t),
         JobEvent.persist .processing (exportPct total t)] ++
          exportProgressEvents total ts := by
      rw [exportProgressEvents, exportProgressEvents, List.map_cons, List.flatten_cons]
    rw [hstep, persistedStatuses_append, ih, List.length_cons, List.replicate_succ]
    rfl

theorem persistedStatuses_attempt (total : ℚ) (times : List ℚ) (ok : Bool) :
    persistedStatuses (exportAttempt total times ok) =
      List.replicate (times.length + 1) JobStatus.processing ++
        [if ok then JobStatus.completed else JobStatus.failed] := by
  cases ok <;>
    simp [exportAttempt, persistedStatuses_append, persistedStatuses_progress,
      persistedStatuses_update, persistedStatuses_successTail, List.replicate_succ]

theorem attempt_statuses_getLast (total : ℚ) (times : List ℚ) (ok : Bool) :
    (persistedStatuses (exportAttempt total times ok)).getLast? =
      some (if ok then JobStatus.completed else JobStatus.failed) := by
  rw [persistedStatuses_attempt, List.getLast?_concat]

theorem exportRun_statuses_head (total : ℚ) (retries : ℕ)
    (outcomes : List (List ℚ × Bool)) (h : outcomes ≠ []) :
    (persistedStatuses (exportRun total retries outcomes)).head? =
      some JobStatus.processing := by
  cases outcomes with
  | nil => exact absurd rfl h
  | cons o rest =>
    obtain ⟨times, ok⟩ := o
    have hhead : ∀ ok', (persistedStatuses (exportAttempt total times ok')).head? =
        some JobStatus.processing := by
      intro ok'
      rw [persistedStatuses_attempt, List.replicate_succ]
      rfl
    cases ok with
    | true =>
      have hrun : exportRun total retries ((times, true) :: rest) =
          exportAttempt total times true := by cases retries <;> rfl
      rw [hrun]
      exact hhead true
    | false =>
      cases retries with
      | zero => exact hhead false
      | succ r =>
        have hrun : exportRun total (r+1) ((times, false) :: rest) =
            exportAttempt total times false ++ exportRun total r rest := rfl
        rw [hrun, persistedStatuses_append]
        rw [persistedStatuses_attempt, List.replicate_succ]
        rfl

theorem chain'_attempt_statuses (R : JobStatus → JobStatus → Prop)
    (hpp : R .processing .processing) (hpt : ∀ t, R .processing t)
    (total : ℚ) (times : List ℚ) (ok : Bool) :
    List.Chain' R (persistedStatuses (exportAttempt total times ok)) := by
  rw [persistedStatuses_attempt, List.chain'_append]
  refine ⟨List.chain'_replicate_of_rel _ hpp, List.chain'_singleton _, ?_⟩
  intro x hx y _
  have hx' : x = JobStatus.processing := by
    rw [List.replicate_succ', List.getLast?_concat] at hx
    exact option_mem_some hx
  subst hx'
  exact hpt y

/-- C2 fails as stated: a transient export failure followed by a successful
retry persists the status sequence processing, failed, processing,
completed — the job leaves the terminal failed state and is later
completed, so terminal statuses are not final on the retry path. -/
theorem c2_counterexample :
    persistedStatuses (exportRun 100 2 [([], false), ([], true)]) =
      [JobStatus.processing, JobStatus.failed, JobStatus.processing,
        JobStatus.completed] ∧
    terminalsFinal [JobStatus.processing, JobStatus.failed, JobStatus.processing,
      JobStatus.completed] = false := by
  constructor
  · simp [exportRun, exportAttempt, persistedStatuses, updateStatusEvents,
      exportProgressEvents, lastPct]
  · rfl

/-- C2 (amended): every run with at least one attempt ends in a terminal
persisted status; a completed status is final (no status is ever persisted
after it); a failed status is final except that a retry may immediately
re-mark the job processing and re-run it. -/
theorem c2_terminal_statuses (total : ℚ) (retries : ℕ)
    (outcomes : List (List ℚ × Bool)) (hne : outcomes ≠ []) :
    ((persistedStatuses (exportRun total retries outcomes)).getLast? =
        some JobStatus.completed ∨
      (persistedStatuses (exportRun total retries outcomes)).getLast? =
        some JobStatus.failed) ∧
    List.Chain' (fun a _ => a ≠ JobStatus.completed)
      (persistedStatuses (exportRun total retries outcomes)) ∧
    List.Chain' (fun a b => a = JobStatus.failed → b = JobStatus.processing)
      (persistedStatuses (exportRun total retries outcomes)) := by
  induction outcomes generalizing retries with
  | nil => exact absurd rfl hne
  | cons o rest ih =>
    obtain ⟨times, ok⟩ := o
    cases ok with
    | true =>
      have hrun : exportRun total retries ((times, true) :: rest) =
          exportAttempt total times true := by cases retries <;> rfl
      rw [hrun]
      refine ⟨Or.inl (by rw [attempt_statuses_getLast]; rfl), ?_, ?_⟩
      · exact chain'_attempt_statuses _ (by decide) (fun t => by decide) total times true
      · exact chain'_attempt_statuses _ (by decide)
          (fun t h => absurd h (by decide)) total times true
    | false =>
      cases retries with
      | zero =>
        have hrun : exportRun total 0 ((times, false) :: rest) =
            exportAttempt total times false := rfl
        rw [hrun]
        refine ⟨Or.inr (by rw [attempt_statuses_getLast]; rfl), ?_, ?_⟩
        · exact chain'_attempt_statuses _ (by decide) (fun t => by decide) total times false
        · exact chain'_attempt_statuses _ (by decide)
            (fun t h => absurd h (by decide)) total times false
      | succ r =>
        have hrun : exportRun total (r+1) ((times, false) :: rest) =
            exportAttempt total times false ++ exportRun total r rest := rfl
        cases rest with
        | nil =>
          have hnil : exportRun total r ([] : List (List ℚ × Bool)) = [] := by
            cases r <;> rfl
          rw [hrun, hnil, List.append_nil]
          refine ⟨Or.inr (by rw [attempt_statuses_getLast]; rfl), ?_, ?_⟩
          · exact chain'_attempt_statuses _ (by decide) (fun t => by decide) total times false
          · exact chain'_attempt_statuses _ (by decide)
              (fun t h => absurd h (by decide)) total times false
        | cons o2 rest2 =>
          have hne2 : o2 :: rest2 ≠ ([] : List (List ℚ × Bool)) := by simp
          obtain ⟨hlast, hc1, hc2⟩ := ih r hne2
          have hhead := exportRun_statuses_head total r (o2 :: rest2) hne2
          have hTne : persistedStatuses (exportRun total r (o2 :: rest2)) ≠ [] := by
            intro hcontr
            rw [hcontr] at hhead
            exact Option.noConfusion hhead
          rw [hrun, persistedStatuses_append]
          refine ⟨?_, ?_, ?_⟩
          · rw [List.getLast?_append_of_ne_nil _ hTne]
            exact hlast
          · rw [List.chain'_append]
            refine ⟨chain'_attempt_statuses _ (by decide) (fun t => by decide)
              total times false, hc1, ?_⟩
            intro x hx y _
            have hxf : x = JobStatus.failed := by
              rw [attempt_statuses_getLast] at hx
              exact option_mem_some hx
            subst hxf
            decide
          · rw [List.chain'_append]
            refine ⟨chain'_attempt_statuses _ (by decide)
              (fun t h => absurd h (by decide)) total times false, hc2, ?_⟩
            intro x hx y hy
            have hyp : y = JobStatus.processing := by
              rw [hhead] at hy
              exact option_mem_some hy
            exact fun _ => hyp

/-- Witness for C2's amended theorem at a concrete single-attempt run. -/
theorem c2_terminal_statuses_witness :
    List.Chain' (fun a _ => a ≠ JobStatus.completed)
      (persistedStatuses (exportRun 100 2 [([], true)])) :=
  (c2_terminal_statuses 100 2 [([], true)] (by simp)).2.1

/-! ## C3: validation errors are retried like any other exception -/

/-- C3 fails as stated: an attempt that raises a validation error (e.g. a
not-found reference) marks the job failed and the underlying execution is
nonetheless retried — the run persists a second processing mark and can
even complete afterwards. -/
theorem c3_counterexample :
    persistedStatuses
        (exportRunExc 100 2 [([], some ExcKind.validation), ([], none)]) =
      [JobStatus.processing, JobStatus.failed, JobStatus.processing,
        JobStatus.completed] ∧
    2 ≤ (persistedStatuses
        (exportRunExc 100 2 [([], some ExcKind.validation),
          ([], none)])).count JobStatus.processing := by
  have h : persistedStatuses
      (exportRunExc 100 2 [([], some ExcKind.validation), ([], none)]) =
      [JobStatus.processing, JobStatus.failed, JobStatus.processing,
        JobStatus.completed] := by
    simp [exportRunExc, exportAttempt, persistedStatuses, updateStatusEvents,
      exportProgressEvents, lastPct]
  refine ⟨h, ?_⟩
  rw [h]
  decide

theorem exportRunExc_kind_blind (total : ℚ) (retries : ℕ)
    (outcomes : List (List ℚ × Option ExcKind)) :
    exportRunExc total retries outcomes =
      exportRun total retries (outcomes.map fun o => (o.1, o.2.isNone)) := by
  induction outcomes generalizing retries with
  | nil => cases retries <;> rfl
  | cons o rest ih =>
    obtain ⟨times, k⟩ := o
    cases k with
    | none => cases retries <;> rfl
    | some k =>
      cases retries with
      | zero => rfl
      | succ r =>
        have h1 : exportRunExc total (r+1) ((times, some k) :: rest) =
            exportAttempt total times false ++ exportRunExc total r rest := rfl
        have h2 : exportRun total (r+1)
              (((times, some k) :: rest).map fun o => (o.1, o.2.isNone)) =
            exportAttempt total times false ++
              exportRun total r (rest.map fun o => (o.1, o.2.isNone)) := rfl
        rw [h1, h2, ih]

theorem countP_terminal_replicate_processing (n : ℕ) :
    (List.replicate n JobStatus.processing).countP (fun s => isTerminal s) = 0 := by
  induction n with
  | zero => rfl
  | succ n ih =>
    rw [List.replicate_succ, List.countP_cons]
    simp [isTerminal, ih]

theorem terminalPersistCount_attempt (total : ℚ) (times : List ℚ) (ok : Bool) :
    terminalPersistCount (exportAttempt total times ok) = 1 := by
  rw [terminalPersistCount, persistedStatuses_attempt, List.countP_append,
    countP_terminal_replicate_processing]
  cases ok <;> simp [isTerminal]

theorem terminalPersistCount_run_le (total : ℚ) (retries : ℕ)
    (outcomes : List (List ℚ × Option ExcKind)) :
    terminalPersistCount (exportRunExc total retries outcomes) ≤
      min (retries + 1) outcomes.length := by
  induction outcomes generalizing retries with
  | nil =>
    cases retries <;>
      simp [exportRunExc, terminalPersistCount, persistedStatuses]
  | cons o rest ih =>
    obtain ⟨times, k⟩ := o
    cases k with
    | none =>
      have h : exportRunExc total retries ((times, none) :: rest) =
          exportAttempt total times true := by cases retries <;> rfl
      rw [h, terminalPersistCount_attempt]
      simp only [List.length_cons]
      omega
    | some k' =>
      cases retries with
      | zero =>
        have h : exportRunExc total 0 ((times, some k') :: rest) =
            exportAttempt total times false := rfl
        rw [h, terminalPersistCount_attempt]
        simp only [List.length_cons]
        omega
      | succ r =>
        have h : exportRunExc total (r+1) ((times, some k') :: rest) =
            exportAttempt total times false ++ exportRunExc total r rest := rfl
        have hsplit : terminalPersistCount
            (exportAttempt total times false ++ exportRunExc total r rest) =
            terminalPersistCount (exportAttempt total times false) +
              terminalPersistCount (exportRunExc total r rest) := by
          rw [terminalPersistCount, persistedStatuses_append, List.countP_append]
          rfl
        rw [h, hsplit, terminalPersistCount_attempt]
        have := ih r
        simp only [List.length_cons]
        omega

/-- C3 (amended): the exception handler is class-blind — a run with typed
failures is identical to the run with the exception kinds erased, so a
validation error is marked failed and retried exactly like a transient
one — and the number of executions reaching a terminal persist is bounded
by max_retries+1 and by the number of supplied attempt outcomes. -/
theorem c3_validation_retry (total : ℚ) (retries : ℕ)
    (outcomes : List (List ℚ × Option ExcKind)) :
    exportRunExc total retries outcomes =
      exportRun total retries (outcomes.map fun o => (o.1, o.2.isNone)) ∧
    terminalPersistCount (exportRunExc total retries outcomes) ≤ retries + 1 ∧
    terminalPersistCount (exportRunExc total retries outcomes) ≤ outcomes.length := by
  have hmin := terminalPersistCount_run_le total retries outcomes
  exact ⟨exportRunExc_kind_blind total retries outcomes,
    le_trans hmin (min_le_left _ _), le_trans hmin (min_le_right _ _)⟩

/-! ## C4: published progress -/

theorem publishedProgress_append (l1 l2 : List JobEvent) :
    publishedProgress (l1 ++ l2) = publishedProgress l1 ++ publishedProgress l2 := by
  simp [publishedProgress]

theorem publishedProgress_progress (total : ℚ) (times : List ℚ) :
    publishedProgress (exportProgressEvents total times) =
      times.map (exportPct total) := by
  induction times with
  | nil => rfl
  | cons t ts ih =>
    have hstep : exportProgressEvents total (t :: ts) =
        [JobEvent.publish .processing (exportPct total t),
         JobEvent.persist .processing (exportPct total t)] ++
          exportProgressEvents total ts := by
      rw [exportProgressEvents, exportProgressEvents, List.map_cons, List.flatten_cons]
    rw [hstep, publishedProgress_append, ih, List.map_cons]
    rfl

theorem publishedProgress_update (st : JobStatus) (p : ℚ) :
    publishedProgress (updateStatusEvents st p) = [p] := rfl

theorem publishedProgress_successTail :
    publishedProgress (JobEvent.publish .processing 95 ::
      updateStatusEvents .completed 100) = [95, 100] := rfl

theorem publishedProgress_attempt (total : ℚ) (times : List ℚ) (ok : Bool) :
    publishedProgress (exportAttempt total times ok) =
      0 :: (times.map (exportPct total) ++
        (if ok then [95, 100] else [lastPct total times])) := by
  cases ok <;>
    simp [exportAttempt, publishedProgress_append, publishedProgress_progress,
      publishedProgress_update, publishedProgress_successTail]

theorem lastPct_eq (total : ℚ) (times : List ℚ) :
    lastPct total times = ((times.map (exportPct total)).getLast?).getD 0 := by
  rw [lastPct]
  suffices h : ∀ (l : List ℚ) (init : ℚ),
      l.foldl (fun _ t => exportPct total t) init =
        ((l.map (exportPct total)).getLast?).getD init from h times 0
  intro l
  induction l with
  | nil => intro init; rfl
  | cons t ts ih =>
    intro init
    rw [List.foldl_cons, ih (exportPct total t), List.map_cons]
    cases hcase : ts.map (exportPct total) with
    | nil => rfl
    | cons a as =>
      rw [List.getLast?_cons_cons]
      cases h2 : (a :: as).getLast? with
      | none => exact absurd (List.getLast?_eq_none_iff.mp h2) (by simp)
      | some v => rfl

theorem exportPct_le_95 (total t : ℚ) : exportPct total t ≤ 95 := min_le_left _ _

theorem exportPct_nonneg (total t : ℚ) (htotal : 0 < total) (ht : 0 ≤ t) :
    0 ≤ exportPct total t := by
  rw [exportPct]
  have : (0:ℚ) ≤ t / total * 100 := by positivity
  exact le_min (by norm_num) this

theorem exportPct_mono (total : ℚ) (htotal : 0 < total) {a b : ℚ} (h : a ≤ b) :
    exportPct total a ≤ exportPct total b := by
  rw [exportPct, exportPct]
  have : a / total * 100 ≤ b / total * 100 := by gcongr
  exact min_le_min (le_refl _) this

theorem lastPct_le_95 (total : ℚ) (times : List ℚ) : lastPct total times ≤ 95 := by
  rw [lastPct_eq]
  cases hcase : (times.map (exportPct total)).getLast? with
  | none => norm_num
  | some v =>
    have hv : v ∈ times.map (exportPct total) := List.mem_of_getLast?_eq_some hcase
    obtain ⟨t, _, ht⟩ := List.mem_map.mp hv
    rw [Option.getD_some, ← ht]
    exact exportPct_le_95 total t

theorem mem_exportProgressEvents (total : ℚ) (times : List ℚ) (e : JobEvent)
    (he : e ∈ exportProgressEvents total times) :
    ∃ t ∈ times, e = JobEvent.publish .processing (exportPct total t) ∨
      e = JobEvent.persist .processing (exportPct total t) := by
  induction times with
  | nil => cases he
  | cons t ts ih =>
    have hstep : exportProgressEvents total (t :: ts) =
        [JobEvent.publish .processing (exportPct total t),
         JobEvent.persist .processing (exportPct total t)] ++
          exportProgressEvents total ts := by
      rw [exportProgressEvents, exportProgressEvents, List.map_cons, List.flatten_cons]
    rw [hstep] at he
    rcases List.mem_append.mp he with h | h
    · simp only [List.mem_cons, List.not_mem_nil, or_false] at h
      rcases h with rfl | rfl
      · exact ⟨t, List.mem_cons_self _ _, Or.inl rfl⟩
      · exact ⟨t, List.mem_cons_self _ _, Or.inr rfl⟩
    · obtain ⟨t', ht', hcase⟩ := ih h
      exact ⟨t', List.mem_cons_of_mem _ ht', hcase⟩

theorem hundredAfterCompleted_of_lt (l : List JobEvent)
    (h : ∀ e ∈ l,
      (match e with | JobEvent.persist _ p => p | JobEvent.publish _ p => p) < 100) :
    ∀ flag, hundredAfterCompleted flag l = true := by
  induction l with
  | nil => intro flag; rfl
  | cons e rest ih =>
    intro flag
    have hrest := fun e' he' => h e' (List.mem_cons_of_mem _ he')
    have he := h e (List.mem_cons_self _ _)
    cases e with
    | persist s p =>
      simp only at he
      by_cases hs : s = JobStatus.completed
      · simp only [hundredAfterCompleted, if_pos hs]
        exact ih hrest true
      · simp only [hundredAfterCompleted, if_neg hs, Bool.and_eq_true]
        exact ⟨by simp [he], ih hrest flag⟩
    | publish s p =>
      simp only at he
      simp only [hundredAfterCompleted, Bool.and_eq_true]
      exact ⟨by simp [he], ih hrest flag⟩

theorem hundredAfterCompleted_true (l : List JobEvent) :
    hundredAfterCompleted true l = true := by
  induction l with
  | nil => rfl
  | cons e rest ih =>
    cases e with
    | persist s p =>
      by_cases hs : s = JobStatus.completed
      · simp only [hundredAfterCompleted, if_pos hs]
        exact ih
      · simp only [hundredAfterCompleted, if_neg hs, Bool.and_eq_true]
        exact ⟨by simp, ih⟩
    | publish s p =>
      simp only [hundredAfterCompleted, Bool.and_eq_true]
      exact ⟨by simp, ih⟩

theorem hundredAfterCompleted_append_of (l1 l2 : List JobEvent)
    (h2 : ∀ f, hundredAfterCompleted f l2 = true) :
    ∀ flag, hundredAfterCompleted flag l1 = true →
      hundredAfterCompleted flag (l1 ++ l2) = true := by
  induction l1 with
  | nil => intro flag _; exact h2 flag
  | cons e rest ih =>
    intro flag h1
    cases e with
    | persist s p =>
      rw [List.cons_append]
      by_cases hs : s = JobStatus.completed
      · simp only [hundredAfterCompleted, if_pos hs] at h1 ⊢
        exact ih true h1
      · simp only [hundredAfterCompleted, if_neg hs, Bool.and_eq_true] at h1 ⊢
        exact ⟨h1.1, ih flag h1.2⟩
    | publish s p =>
      rw [List.cons_append]
      simp only [hundredAfterCompleted, Bool.and_eq_true] at h1 ⊢
      exact ⟨h1.1, ih flag h1.2⟩

theorem hundredAfterCompleted_attempt (total : ℚ) (times : List ℚ) (ok : Bool) :
    ∀ flag, hundredAfterCompleted flag (exportAttempt total times ok) = true := by
  intro flag
  rw [exportAttempt]
  have hprefix : ∀ f, hundredAfterCompleted f
      (updateStatusEvents .processing 0 ++ exportProgressEvents total times) = true := by
    apply hundredAfterCompleted_of_lt
    intro e he
    rcases List.mem_append.mp he with h | h
    · simp only [updateStatusEvents, List.mem_cons, List.not_mem_nil, or_false] at h
      rcases h with rfl | rfl <;> norm_num
    · obtain ⟨t, _, hcase⟩ := mem_exportProgressEvents total times e h
      have hle := exportPct_le_95 total t
      rcases hcase with rfl | rfl <;> (simp only; linarith)
  cases ok with
  | true =>
    apply hundredAfterCompleted_append_of
    · intro f
      by_cases hf : f = true
      · subst hf
        simp [hundredAfterCompleted, updateStatusEvents]
      · have hf' : f = false := by
          cases f
          · rfl
          · exact absurd rfl hf
        subst hf'
        simp only [hundredAfterCompleted, updateStatusEvents, if_pos rfl,
          Bool.and_eq_true]
        refine ⟨by norm_num, by simp⟩
    · exact hprefix flag
  | false =>
    apply hundredAfterCompleted_append_of
    · intro f
      apply hundredAfterCompleted_of_lt
      intro e he
      have hlast := lastPct_le_95 total times
      rw [updateStatusEvents] at he
      rcases List.mem_cons.mp he with rfl | he2
      · simp only
        linarith
      · rw [List.mem_singleton] at he2
        subst he2
        simp only
        linarith
    · exact hprefix flag

theorem hundredAfterCompleted_run (total : ℚ) (retries : ℕ)
    (outcomes : List (List ℚ × Bool)) :
    hundredAfterCompleted false (exportRun total retries outcomes) = true := by
  induction outcomes generalizing retries with
  | nil => cases retries <;> rfl
  | cons o rest ih =>
    obtain ⟨times, ok⟩ := o
    cases ok with
    | true =>
      have hrun : exportRun total retries ((times, true) :: rest) =
          exportAttempt total times true := by cases retries <;> rfl
      rw [hrun]
      exact hundredAfterCompleted_attempt total times true false
    | false =>
      cases retries with
      | zero => exact hundredAfterCompleted_attempt total times false false
      | succ r =>
        have hrun : exportRun total (r+1) ((times, false) :: rest) =
            exportAttempt total times false ++ exportRun total r rest := rfl
        rw [hrun]
        apply hundredAfterCompleted_append_of
        · intro f
          cases f
          · exact ih r
          · exact hundredAfterCompleted_true _
        · exact hundredAfterCompleted_attempt total times false false

theorem processingPublishes_append (l1 l2 : List JobEvent) :
    processingPublishes (l1 ++ l2) =
      processingPublishes l1 ++ processingPublishes l2 := by
  simp [processingPublishes]

theorem processingPublishes_progress (total : ℚ) (times : List ℚ) :
    processingPublishes (exportProgressEvents total times) =
      times.map (exportPct total) := by
  induction times with
  | nil => rfl
  | cons t ts ih =>
    have hstep : exportProgressEvents total (t :: ts) =
        [JobEvent.publish .processing (exportPct total t),
         JobEvent.persist .processing (exportPct total t)] ++
          exportProgressEvents total ts := by
      rw [exportProgressEvents, exportProgressEvents, List.map_cons, List.flatten_cons]
    rw [hstep, processingPublishes_append, ih, List.map_cons]
    rfl

theorem processingPublishes_attempt (total : ℚ) (times : List ℚ) (ok : Bool) :
    processingPublishes (exportAttempt total times ok) =
      0 :: (times.map (exportPct total) ++ (if ok then [95] else [])) := by
  have h1 : processingPublishes (updateStatusEvents .processing 0) = [0] := rfl
  have h2 : processingPublishes (JobEvent.publish .processing 95 ::
      updateStatusEvents .completed 100) = [95] := rfl
  have h3 : processingPublishes (updateStatusEvents .failed (lastPct total times)) =
      [] := rfl
  cases ok <;>
    simp [exportAttempt, processingPublishes_append, processingPublishes_progress,
      h1, h2, h3]

theorem processingPublishes_attempt_le (total : ℚ) (times : List ℚ) (ok : Bool) :
    ∀ p ∈ processingPublishes (exportAttempt total times ok), p ≤ 95 := by
  intro p hp
  rw [processingPublishes_attempt] at hp
  rcases List.mem_cons.mp hp with rfl | hp2
  · norm_num
  · rcases List.mem_append.mp hp2 with h | h
    · obtain ⟨t, _, ht⟩ := List.mem_map.mp h
      rw [← ht]
      exact exportPct_le_95 total t
    · cases ok with
      | true =>
        rw [if_pos rfl, List.mem_singleton] at h
        subst h
        norm_num
      | false =>
        rw [if_neg (by simp)] at h
        cases h

theorem processingPublishes_run_le (total : ℚ) (retries : ℕ)
    (outcomes : List (List ℚ × Bool)) :
    ∀ p ∈ processingPublishes (exportRun total retries outcomes), p ≤ 95 := by
  induction outcomes generalizing retries with
  | nil =>
    intro p hp
    cases retries <;> cases hp
  | cons o rest ih =>
    obtain ⟨times, ok⟩ := o
    cases ok with
    | true =>
      have hrun : exportRun total retries ((times, true) :: rest) =
          exportAttempt total times true := by cases retries <;> rfl
      rw [hrun]
      exact processingPublishes_attempt_le total times true
    | false =>
      cases retries with
      | zero => exact processingPublishes_attempt_le total times false
      | succ r =>
        have hrun : exportRun total (r+1) ((times, false) :: rest) =
            exportAttempt total times false ++ exportRun total r rest := rfl
        rw [hrun, processingPublishes_append]
        intro p hp
        rcases List.mem_append.mp hp with h | h
        · exact processingPublishes_attempt_le total times false p h
        · exact ih r p h

theorem c4_attempt_chain (total : ℚ) (times : List ℚ) (ok : Bool)
    (htotal : 0 < total) (hnn : ∀ t ∈ times, 0 ≤ t)
    (hchain : List.Chain' (· ≤ ·) times) :
    List.Chain' (· ≤ ·) (publishedProgress (exportAttempt total times ok)) := by
  rw [publishedProgress_attempt, List.chain'_cons']
  constructor
  · intro y hy
    cases times with
    | nil =>
      cases ok with
      | true =>
        simp only [List.map_nil, List.nil_append, if_pos rfl] at hy
        have : y = (95:ℚ) := option_mem_some hy
        subst this
        norm_num
      | false =>
        simp only [List.map_nil, List.nil_append] at hy
        have : y = lastPct total [] := by
          rw [if_neg (by simp)] at hy
          exact option_mem_some hy
        subst this
        rw [lastPct]
        simp
    | cons t ts =>
      simp only [List.map_cons, List.cons_append, List.head?_cons] at hy
      have : y = exportPct total t := option_mem_some hy
      subst this
      exact exportPct_nonneg total t htotal (hnn t (List.mem_cons_self _ _))
  · rw [List.chain'_append]
    refine ⟨?_, ?_, ?_⟩
    · rw [List.chain'_map]
      exact List.Chain'.imp (fun a b hab => exportPct_mono total htotal hab) hchain
    · cases ok with
      | true =>
        rw [if_pos rfl]
        exact List.chain'_cons.mpr ⟨by norm_num, List.chain'_singleton _⟩
      | false =>
        rw [if_neg (by simp)]
        exact List.chain'_singleton _
    · intro x hx y hy
      have hxmap : (times.map (exportPct total)).getLast? = some x :=
        Option.mem_def.mp hx
      have hx95 : x ≤ 95 := by
        have hmem := List.mem_of_getLast?_eq_some hxmap
        obtain ⟨t, _, ht⟩ := List.mem_map.mp hmem
        rw [← ht]
        exact exportPct_le_95 total t
      cases ok with
      | true =>
        rw [if_pos rfl] at hy
        have : y = (95:ℚ) := option_mem_some hy
        subst this
        exact hx95
      | false =>
        rw [if_neg (by simp)] at hy
        have : y = lastPct total times := option_mem_some hy
        subst this
        rw [lastPct_eq, hxmap, Option.getD_some]

/-- C4 fails as stated: for a single job id, a failed attempt that reached
progress 50 followed by a retried attempt publishes the progress sequence
0, 50, 50, 0, 95, 100 — the retry resets the published progress from 50
back to 0, so the published sequence is not non-decreasing. -/
theorem c4_counterexample :
    publishedProgress (exportRun 100 2 [([50], false), ([], true)]) =
      [0, 50, 50, 0, 95, 100] ∧
    ¬ List.Chain' (· ≤ ·)
      (publishedProgress (exportRun 100 2 [([50], false), ([], true)])) := by
  have h : publishedProgress (exportRun 100 2 [([50], false), ([], true)]) =
      [0, 50, 50, 0, 95, 100] := by
    simp [exportRun, exportAttempt, publishedProgress, updateStatusEvents,
      exportProgressEvents, lastPct, exportPct]
    norm_num
  refine ⟨h, ?_⟩
  rw [h]
  intro hc
  simp only [List.chain'_cons] at hc
  norm_num at hc

/-- C4 (amended): within a single execution attempt — given non-decreasing,
non-negative parsed transcode times and a positive total duration — the
published progress sequence is non-decreasing; across a whole run, no
progress of 100 is ever published or persisted before a completed status is
persisted, and every published processing progress is clamped to 95. A
retried run, however, resets the published progress to 0 (see the
counterexample), so cross-attempt publishes are not non-decreasing. -/
theorem c4_progress_properties (total : ℚ) :
    (∀ (times : List ℚ) (ok : Bool), 0 < total → (∀ t ∈ times, 0 ≤ t) →
      List.Chain' (· ≤ ·) times →
      List.Chain' (· ≤ ·) (publishedProgress (exportAttempt total times ok))) ∧
    (∀ (retries : ℕ) (outcomes : List (List ℚ × Bool)),
      hundredAfterCompleted false (exportRun total retries outcomes) = true) ∧
    (∀ (retries : ℕ) (outcomes : List (List ℚ × Bool)),
      ∀ p ∈ processingPublishes (exportRun total retries outcomes), p ≤ 95) :=
  ⟨fun times ok htotal hnn hchain => c4_attempt_chain total times ok htotal hnn hchain,
   fun retries outcomes => hundredAfterCompleted_run total retries outcomes,
   fun retries outcomes => processingPublishes_run_le total retries outcomes⟩

/-- Witness for C4's amended theorem at a concrete successful attempt. -/
theorem c4_progress_properties_witness :
    List.Chain' (· ≤ ·) (publishedProgress (exportAttempt 100 [50] true)) :=
  (c4_progress_properties 100).1 [50] true (by norm_num)
    (fun t ht => by
      rw [List.mem_singleton] at ht
      subst ht
      norm_num)
    (List.chain'_singleton _)

/-! ## C7: beat-sync cut points -/

theorem greedyMinGap_chain (minGap : ℚ) (l : List ℚ) :
    ∀ prev, List.Chain' (fun a b => minGap ≤ b - a)
      (prev :: greedyMinGap minGap prev l) := by
  induction l with
  | nil =>
    intro prev
    exact List.chain'_singleton _
  | cons bt rest ih =>
    intro prev
    rw [greedyMinGap]
    split_ifs with h
    · exact List.chain'_cons.mpr ⟨h, ih bt⟩
    · exact ih prev

theorem greedyMinGap_sublist (minGap : ℚ) (l : List ℚ) :
    ∀ prev, (greedyMinGap minGap prev l).Sublist l := by
  induction l with
  | nil =>
    intro prev
    exact List.Sublist.refl _
  | cons bt rest ih =>
    intro prev
    rw [greedyMinGap]
    split_ifs with h
    · exact List.Sublist.cons₂ bt (ih bt)
    · exact List.Sublist.cons bt (ih prev)

/-- C7: with a positive minimum clip duration, the beat-sync cut points
(0, the filtered beats, the source duration) are strictly increasing, every
adjacent pair except possibly the final one is at least
min_clip_duration_ms apart, and the kept beats are a subsequence of the
sensitivity-subsampled beat times converted to milliseconds. -/
theorem c7_beat_cut_points (beat_times_sec : List ℚ) (sensitivity : ℚ)
    (min_clip_duration_ms : ℤ) (video_duration_ms : ℚ)
    (hpos : 0 < min_clip_duration_ms) :
    List.Chain' (· < ·)
      (beatCutPoints video_duration_ms
        (detect_beat_timestamps_post beat_times_sec sensitivity
          min_clip_duration_ms)) ∧
    List.Chain' (fun a b => (min_clip_duration_ms : ℚ) ≤ b - a)
      (beatCutPoints video_duration_ms
        (detect_beat_timestamps_post beat_times_sec sensitivity
          min_clip_duration_ms)).dropLast ∧
    (detect_beat_timestamps_post beat_times_sec sensitivity
        min_clip_duration_ms).Sublist
      ((everyNth (beatStep sensitivity) beat_times_sec).map (· * 1000)) := by
  have hgpos : (0:ℚ) < (min_clip_duration_ms : ℚ) := by exact_mod_cast hpos
  set g : ℚ := (min_clip_duration_ms : ℚ) with hg
  set beats := detect_beat_timestamps_post beat_times_sec sensitivity
    min_clip_duration_ms with hbeats
  have hchain0 : List.Chain' (fun a b => g ≤ b - a) (0 :: beats) := by
    rw [hbeats, detect_beat_timestamps_post]
    exact greedyMinGap_chain g _ 0
  haveI : IsTrans ℚ (fun a b => g ≤ b - a) :=
    ⟨fun a b c hab hbc => by linarith⟩
  have hchain_pts : List.Chain' (fun a b => g ≤ b - a)
      ((0 :: beats).filter fun p => p < video_duration_ms) :=
    hchain0.sublist (List.filter_sublist _)
  refine ⟨?_, ?_, ?_⟩
  · rw [beatCutPoints, List.chain'_append]
    refine ⟨hchain_pts.imp (fun a b hab => by linarith),
      List.chain'_singleton _, ?_⟩
    intro x hx y hy
    have hxm := List.mem_of_getLast?_eq_some (Option.mem_def.mp hx)
    have hxlt : x < video_duration_ms := by
      have := List.of_mem_filter hxm
      simpa using this
    have hyv : y = video_duration_ms := option_mem_some hy
    subst hyv
    exact hxlt
  · have hdrop : (beatCutPoints video_duration_ms beats).dropLast =
        (0 :: beats).filter fun p => p < video_duration_ms := by
      rw [beatCutPoints]
      exact List.dropLast_concat
    rw [hdrop]
    exact hchain_pts
  · rw [hbeats, detect_beat_timestamps_post]
    exact greedyMinGap_sublist _ _ 0

/-- Witness for C7 at a concrete beat list. -/
theorem c7_beat_cut_points_witness :
    List.Chain' (· < ·)
      (beatCutPoints 2200
        (detect_beat_timestamps_post [1/2, 1, 3/2] 1 500)) :=
  (c7_beat_cut_points [1/2, 1, 3/2] 1 500 2200 (by norm_num)).1

/-! ## C10: beat-sync clips respect the 100 ms floor and the duration window -/

theorem mem_beatCutPoints (dur : ℚ) (beats : List ℚ) (x : ℚ)
    (hx : x ∈ beatCutPoints dur beats) :
    x = dur ∨ (x < dur ∧ (x = 0 ∨ x ∈ beats)) := by
  rw [beatCutPoints] at hx
  rcases List.mem_append.mp hx with h | h
  · right
    have hfilter := List.of_mem_filter h
    have hmem := List.mem_of_mem_filter h
    refine ⟨by simpa using hfilter, ?_⟩
    rcases List.mem_cons.mp hmem with rfl | h2
    · exact Or.inl rfl
    · exact Or.inr h2
  · left
    exact List.mem_singleton.mp h

theorem mem_beat_clips (dur : ℚ) (beats : List ℚ) (trans : Bool) (c : BeatClip)
    (hc : c ∈ generate_beat_sync_clips dur beats trans) :
    ∃ s e, s ∈ beatCutPoints dur beats ∧ e ∈ beatCutPoints dur beats ∧
      ¬ (e - s < 100) ∧ c.startTime = s ∧ c.endTime = e := by
  rw [generate_beat_sync_clips] at hc
  obtain ⟨ie, hie, hfc⟩ := List.mem_filterMap.mp hc
  by_cases hlt : ie.2.2 - ie.2.1 < 100
  · rw [if_pos hlt] at hfc
    cases hfc
  · rw [if_neg hlt] at hfc
    have hcval := Option.some.inj hfc
    have hie2 : ie.2 ∈ (beatCutPoints dur beats).zip (beatCutPoints dur beats).tail := by
      have hget := List.mem_enum_iff_get?.mp hie
      exact List.get?_mem hget
    have hzip : ie.2.1 ∈ beatCutPoints dur beats ∧
        ie.2.2 ∈ (beatCutPoints dur beats).tail := by
      have : (ie.2.1, ie.2.2) ∈
          (beatCutPoints dur beats).zip (beatCutPoints dur beats).tail := by
        simpa using hie2
      exact List.of_mem_zip this
    refine ⟨ie.2.1, ie.2.2, hzip.1, List.mem_of_mem_tail hzip.2, hlt, ?_, ?_⟩
    · rw [← hcval]
    · rw [← hcval]

/-- C10 (implicit claim): every clip emitted by beat-sync generation is at
least 100 ms long; with non-negative beat timestamps every clip lies inside
[0, video_duration]; and the emitted clips need not tile the video — for a
1000 ms video with one beat at 50 ms the sub-100 ms head segment is
silently skipped and only (50, 1000) is returned. -/
theorem c10_beat_clip_bounds (video_duration_ms : ℚ) (beats : List ℚ)
    (trans : Bool) (hb : ∀ b ∈ beats, 0 ≤ b) :
    (∀ c ∈ generate_beat_sync_clips video_duration_ms beats trans,
      100 ≤ c.endTime - c.startTime) ∧
    (∀ c ∈ generate_beat_sync_clips video_duration_ms beats trans,
      0 ≤ c.startTime ∧ c.endTime ≤ video_duration_ms) ∧
    ((generate_beat_sync_clips 1000 [50] false).map
      fun c => (c.startTime, c.endTime)) = [(50, 1000)] := by
  refine ⟨?_, ?_, ?_⟩
  · intro c hc
    obtain ⟨s, e, _, _, hge, hs, he⟩ := mem_beat_clips _ _ _ c hc
    rw [hs, he]
    linarith [not_lt.mp hge]
  · intro c hc
    obtain ⟨s, e, hsmem, hemem, hge, hs, he⟩ := mem_beat_clips _ _ _ c hc
    have hge' := not_lt.mp hge
    have hebound : e ≤ video_duration_ms := by
      rcases mem_beatCutPoints _ _ _ hemem with rfl | ⟨hlt, _⟩
      · exact le_refl _
      · exact hlt.le
    constructor
    · rcases mem_beatCutPoints _ _ _ hsmem with rfl | ⟨_, hcase⟩
      · -- s is the video duration: then e ≤ s contradicts 100 ≤ e - s
        exfalso
        linarith
      · rw [hs]
        rcases hcase with rfl | hmem
        · exact le_refl _
        · exact hb _ hmem
    · rw [he]
      exact hebound
  · simp [generate_beat_sync_clips, beatCutPoints, List.enum, List.enumFrom]
    norm_num [List.filterMap_cons, List.filterMap_nil]

/-- Witness for C10 at a concrete beat list. -/
theorem c10_beat_clip_bounds_witness :
    ((generate_beat_sync_clips 1000 [50] false).map
      fun c => (c.startTime, c.endTime)) = [(50, 1000)] :=
  (c10_beat_clip_bounds 1000 [50] false
    (fun b hb => by
      rw [List.mem_singleton] at hb
      subst hb
      norm_num)).2.2

/-! ## C6: highlight post-processing invariants -/

theorem hlOverlap_comm (a b : Candidate) : hlOverlap a b ↔ hlOverlap b a := by
  rw [hlOverlap, hlOverlap]
  exact and_comm

theorem hlDedup_pairwise (maxH : ℕ) (l : List Candidate) :
    ∀ acc, acc.Pairwise (fun a b => ¬ hlOverlap a b) →
      (hlDedup maxH acc l).Pairwise (fun a b => ¬ hlOverlap a b) := by
  induction l with
  | nil =>
    intro acc hacc
    exact hacc
  | cons c rest ih =>
    intro acc hacc
    have happ : ¬ (acc.any fun h => decide (hlOverlap c h)) = true →
        (acc ++ [c]).Pairwise (fun a b => ¬ hlOverlap a b) := by
      intro hov
      rw [List.pairwise_append]
      refine ⟨hacc, List.pairwise_singleton _ _, ?_⟩
      intro a ha b hb
      rw [List.mem_singleton] at hb
      intro hover
      have hover' : hlOverlap a c := hb ▸ hover
      apply hov
      rw [List.any_eq_true]
      exact ⟨a, ha, decide_eq_true ((hlOverlap_comm a c).mp hover')⟩
    simp only [hlDedup]
    split_ifs with hov hlen hlen2
    · exact hacc
    · exact ih _ hacc
    · exact happ hov
    · exact ih _ (happ hov)

theorem hlDedup_length (maxH : ℕ) (l : List Candidate) :
    ∀ acc, acc.length < maxH → (hlDedup maxH acc l).length ≤ maxH := by
  induction l with
  | nil =>
    intro acc hacc
    exact hacc.le
  | cons c rest ih =>
    intro acc hacc
    simp only [hlDedup]
    split_ifs with hov hlen hlen2
    · exact hacc.le
    · exact ih _ hacc
    · rw [List.length_append, List.length_singleton]
      omega
    · exact ih _ (not_le.mp hlen2)

theorem hlDedup_subset (maxH : ℕ) (l : List Candidate) :
    ∀ acc x, x ∈ hlDedup maxH acc l → x ∈ acc ∨ x ∈ l := by
  induction l with
  | nil =>
    intro acc x hx
    exact Or.inl hx
  | cons c rest ih =>
    intro acc x hx
    simp only [hlDedup] at hx
    split_ifs at hx with hov hlen hlen2
    · exact Or.inl hx
    · rcases ih _ x hx with h | h
      · exact Or.inl h
      · exact Or.inr (List.mem_cons_of_mem _ h)
    · rcases List.mem_append.mp hx with h | h
      · exact Or.inl h
      · rw [List.mem_singleton] at h
        subst h
        exact Or.inr (List.mem_cons_self _ _)
    · rcases ih _ x hx with h | h
      · rcases List.mem_append.mp h with h2 | h2
        · exact Or.inl h2
        · rw [List.mem_singleton] at h2
          subst h2
          exact Or.inr (List.mem_cons_self _ _)
      · exact Or.inr (List.mem_cons_of_mem _ h)

theorem mem_mkHighlightCandidates (wins : List (ℚ × ℚ × ℚ))
    (minD maxD : ℤ) (c : Candidate)
    (hc : c ∈ mkHighlightCandidates wins minD maxD) :
    minD ≤ c.duration_ms ∧ c.duration_ms ≤ maxD := by
  rw [mkHighlightCandidates] at hc
  obtain ⟨w, _, hfc⟩ := List.mem_filterMap.mp hc
  by_cases hcond : (w.2.1 - w.1) * 1000 < (minD:ℚ) ∨ (maxD:ℚ) < (w.2.1 - w.1) * 1000
  · rw [if_pos hcond] at hfc
    cases hfc
  · rw [if_neg hcond] at hfc
    push_neg at hcond
    obtain ⟨hmin, hmax⟩ := hcond
    have hc' := Option.some.inj hfc
    have hdm : c.duration_ms = pyRound ((w.2.1 - w.1) * 1000) := by
      rw [← hc']
    have hb := pyRound_abs_le ((w.2.1 - w.1) * 1000)
    rw [abs_le] at hb
    constructor
    · rw [hdm]
      have hq : (minD:ℚ) - 1 < (pyRound ((w.2.1 - w.1) * 1000) : ℚ) := by linarith
      have hz : minD - 1 < pyRound ((w.2.1 - w.1) * 1000) := by exact_mod_cast hq
      omega
    · rw [hdm]
      have hq : (pyRound ((w.2.1 - w.1) * 1000) : ℚ) < (maxD:ℚ) + 1 := by linarith
      have hz : pyRound ((w.2.1 - w.1) * 1000) < maxD + 1 := by exact_mod_cast hq
      omega

/-- C6: for every window list (the analyzer-derived candidate windows) and
a positive max_highlights (the request schema enforces ≥ 1), the final
highlight list is pairwise non-overlapping, sorted by ascending start
time, holds at most max_highlights entries, and every entry's duration
lies within [min_duration_ms, max_duration_ms]. -/
theorem c6_highlights (wins : List (ℚ × ℚ × ℚ)) (max_highlights : ℕ)
    (min_duration_ms max_duration_ms : ℤ) (hmax : 1 ≤ max_highlights) :
    (detect_highlights_post wins max_highlights min_duration_ms
      max_duration_ms).Pairwise (fun a b => ¬ hlOverlap a b) ∧
    List.Sorted (fun a b : Candidate => a.start_ms ≤ b.start_ms)
      (detect_highlights_post wins max_highlights min_duration_ms
        max_duration_ms) ∧
    (detect_highlights_post wins max_highlights min_duration_ms
      max_duration_ms).length ≤ max_highlights ∧
    ∀ c ∈ detect_highlights_post wins max_highlights min_duration_ms
      max_duration_ms,
      min_duration_ms ≤ c.duration_ms ∧ c.duration_ms ≤ max_duration_ms := by
  rw [detect_highlights_post]
  set cands := (mkHighlightCandidates wins min_duration_ms max_duration_ms).mergeSort
    (fun a b => decide (b.score ≤ a.score)) with hcands
  set ded := hlDedup max_highlights [] cands with hded
  have hperm : List.Perm
      (ded.mergeSort fun a b => decide (a.start_ms ≤ b.start_ms)) ded :=
    List.mergeSort_perm _ _
  refine ⟨?_, ?_, ?_, ?_⟩
  · refine List.Pairwise.perm (hlDedup_pairwise _ _ [] List.Pairwise.nil)
      hperm.symm ?_
    intro x y h hover
    exact h ((hlOverlap_comm y x).mp hover)
  · have hs : (ded.mergeSort fun a b => decide (a.start_ms ≤ b.start_ms)).Pairwise
        (fun a b => (decide (a.start_ms ≤ b.start_ms)) = true) :=
      List.sorted_mergeSort
        (fun a b c hab hbc => by
          simp only [decide_eq_true_eq] at hab hbc ⊢
          exact le_trans hab hbc)
        (fun a b => by
          simp only [Bool.or_eq_true, decide_eq_true_eq]
          exact le_total _ _)
        ded
    exact hs.imp (fun {a b} h => by simpa using h)
  · have hlen : ded.length ≤ max_highlights :=
      hlDedup_length _ _ [] (by simpa using hmax)
    calc (ded.mergeSort (fun a b => decide (a.start_ms ≤ b.start_ms))).length
        = ded.length := hperm.length_eq
      _ ≤ max_highlights := hlen
  · intro c hc
    have hc1 : c ∈ ded := List.mem_mergeSort.mp hc
    rcases hlDedup_subset _ _ [] c hc1 with h | h
    · cases h
    · exact mem_mkHighlightCandidates _ _ _ c (List.mem_mergeSort.mp h)

/-- Witness for C6 at one concrete window. -/
theorem c6_highlights_witness :
    (detect_highlights_post [(0, 4, 1)] 5 3000 15000).length ≤ 5 :=
  (c6_highlights [(0, 4, 1)] 5 3000 15000 (by norm_num)).2.2.1
